import Mathlib

/-!
Shallow embedding of the PR-notification triage tool (lgtm-gtfo).

The definitions below translate the TypeScript source, mainly
`src/github/pr.ts` (PR status resolution, bounded-concurrency runner,
batch reconciliation, pending-review aggregation) and `src/processor.ts`
(the deletion policy engine).  Machine numbers are modelled as `Nat`/`Int`;
JavaScript truthiness on optional fields is modelled explicitly; the
asynchronous runner is modelled as a small-step machine driven by an
explicit completion schedule.
-/

namespace Lgtm

/-- Lifecycle state of a pull request (`PrState` in src/github/pr.ts). -/
inductive PrState where
  | OPEN
  | CLOSED
  | MERGED
deriving DecidableEq, Repr

/-- Result of resolving one PR reference (`PrCheckResult` in src/github/pr.ts).
The optional `error` field is `none` when absent. -/
structure PrCheckResult where
  repo : String
  prNumber : Nat
  state : PrState
  isMerged : Bool
  wasRequestedReviewer : Bool
  wasMentioned : Bool
  error : Option String := none
deriving DecidableEq, Repr

/-- JavaScript truthiness of an optional string field: `null`/`undefined`
and the empty string are falsy. -/
def truthyStr : Option String → Bool
  | none => false
  | some s => !(s == "")

/-- JavaScript truthiness of an optional number field: `null`/`undefined`
and `0` are falsy. -/
def truthyNat : Option Nat → Bool
  | none => false
  | some n => !(n == 0)

/-- Rendering of `state.toLowerCase()` for the three PR states. -/
def stateLower : PrState → String
  | .OPEN => "open"
  | .CLOSED => "closed"
  | .MERGED => "merged"

/-- One iteration of the PR-email loop of `processEmails`
(src/processor.ts lines 90-118): given the reconciled status looked up for
the email's key (`none` when the key is absent from the map), return
`some reason` exactly when the email is pushed onto `prToDelete`, and
`none` when the loop `continue`s (the email is kept).  The test
`if (prResult.error)` is JavaScript truthiness on the optional string. -/
def prEmailDecision (skipMentions skipReviewRequests : Bool)
    (res : Option PrCheckResult) : Option String :=
  match res with
  | none => none
  | some r =>
    if truthyStr r.error then none
    else if r.state = PrState.OPEN then none
    else if !skipMentions && r.wasMentioned then none
    else if !skipReviewRequests && r.wasRequestedReviewer then none
    else some (stateLower r.state ++ " PR, not specifically mentioned")

/-- A notification email as the processor sees it (`UnifiedEmail` in
src/shared/types.ts).  `receivedDateTime` is the parsed timestamp in epoch
milliseconds (the ISO string parsing happens at the adapter boundary);
`repo`/`prNumber` are `none` when the subject parser yielded `null`. -/
structure UnifiedEmail where
  id : String
  subject : String
  receivedDateTime : Int
  repo : Option String := none
  prNumber : Option Nat := none
deriving DecidableEq, Repr

/-- The predicate of `emails.filter((e) => e.repo && e.prNumber)`
(src/processor.ts line 77), with JavaScript truthiness on both fields. -/
def isPrEmail (e : UnifiedEmail) : Bool :=
  truthyStr e.repo && truthyNat e.prNumber

/-- The predicate of `emails.filter((e) => !e.repo || !e.prNumber)`
(src/processor.ts line 78). -/
def isNonPrEmail (e : UnifiedEmail) : Bool :=
  !truthyStr e.repo || !truthyNat e.prNumber

/-- Boolean test that `needle` is a prefix of `hay` (over characters). -/
def listIsPrefixB : List Char → List Char → Bool
  | [], _ => true
  | _ :: _, [] => false
  | a :: as, b :: bs => a == b && listIsPrefixB as bs

/-- Boolean test that `needle` occurs contiguously inside `hay`. -/
def listIsSubB (needle : List Char) : List Char → Bool
  | [] => listIsPrefixB needle []
  | b :: bs => listIsPrefixB needle (b :: bs) || listIsSubB needle bs

/-- Substring containment on strings, modelling JavaScript
`hay.includes(needle)`. -/
def strContains (hay needle : String) : Bool :=
  listIsSubB needle.toList hay.toList

/-- ASCII lowercasing of a string, used to model case-insensitive
matching of the fixed ASCII CI patterns. -/
def lowerStr (s : String) : String :=
  String.mk (s.toList.map Char.toLower)

/-- The fixed CI subject patterns of src/processor.ts lines 125-131,
stored lowercased; each source regex `/…/i` is a case-insensitive
substring test of an ASCII literal. -/
def ciPatterns : List String :=
  ["run failed", "run succeeded", "run cancelled", "run skipped", "workflow run"]

/-- The test `ciPatterns.some((p) => p.test(email.subject))`
(src/processor.ts line 134). -/
def isCiSubject (subject : String) : Bool :=
  ciPatterns.any fun p => strContains (lowerStr subject) p

/-- Milliseconds per day; `cutoffDate.setDate(getDate() - ciDays)` is
modelled as subtracting `ciDays` fixed 24-hour days from `now`. -/
def msPerDay : Int := 86400000

/-- Decimal digits of a natural number, little endian, computed with
explicit fuel so the definition is structural.  `digitsFuel n n` is the
digit list of `n`. -/
def digitsFuel : Nat → Nat → List Nat
  | 0, _ => []
  | f + 1, n => if n = 0 then [] else n % 10 :: digitsFuel f (n / 10)

/-- Little-endian decimal digits of `n`. -/
def natLEDigits (n : Nat) : List Nat := digitsFuel n n

/-- The character for the decimal digit `d`. -/
def digitChar (d : Nat) : Char := Char.ofNat (48 + d)

/-- Character list of the decimal rendering of `n`, as produced by a
JavaScript template literal `{n}` for a nonnegative integer. -/
def natToStrChars (n : Nat) : List Char :=
  if n = 0 then ['0'] else ((natLEDigits n).reverse).map digitChar

/-- Decimal rendering of `n`, as produced by `{n}` in a template literal. -/
def natToStr (n : Nat) : String := String.mk (natToStrChars n)

/-- CI pass decision for one non-PR email (src/processor.ts lines
133-144): the subject must match a CI pattern and the received timestamp
must be strictly earlier than `now` minus the threshold.  With the
threshold unconfigured (`ciDays = none`, i.e. `options.ciDays ===
undefined`) no email is considered. -/
def ciEmailDecision (ciDays : Option Nat) (now : Int) (e : UnifiedEmail) :
    Option String :=
  match ciDays with
  | none => none
  | some d =>
    if isCiSubject e.subject then
      if e.receivedDateTime < now - d * msPerDay then
        some ("CI email older than " ++ natToStr d ++ " days")
      else none
    else none

/-- Rendering of `{email.repo}` in a template literal: JavaScript prints
`null` for a missing value. -/
def jsShowStr : Option String → String
  | none => "null"
  | some s => s

/-- Rendering of `{email.prNumber}` in a template literal. -/
def jsShowNat : Option Nat → String
  | none => "null"
  | some n => natToStr n

/-- The key `"{email.repo}#{email.prNumber}"` built at
src/processor.ts line 91. -/
def emailKey (e : UnifiedEmail) : String :=
  jsShowStr e.repo ++ "#" ++ jsShowNat e.prNumber

/-- The PR-email pass of `processEmails` (src/processor.ts lines 77,
83-119): iterate over the PR emails, look up each reconciled status and
collect the emails pushed onto `prToDelete` together with their reasons.
The status map is abstracted as a lookup function. -/
def prPass (skipMentions skipReviewRequests : Bool)
    (statusOf : String → Option PrCheckResult)
    (emails : List UnifiedEmail) : List (UnifiedEmail × String) :=
  (emails.filter isPrEmail).filterMap fun e =>
    (prEmailDecision skipMentions skipReviewRequests (statusOf (emailKey e))).map
      fun reason => (e, reason)

/-- The CI-email pass of `processEmails` (src/processor.ts lines
121-145): runs only when a threshold is configured, over the non-PR
emails, collecting the emails pushed onto `ciToDelete` with reasons. -/
def ciPass (ciDays : Option Nat) (now : Int)
    (emails : List UnifiedEmail) : List (UnifiedEmail × String) :=
  match ciDays with
  | none => []
  | some d =>
    (emails.filter isNonPrEmail).filterMap fun e =>
      (ciEmailDecision (some d) now e).map fun reason => (e, reason)

/-- The final deletion list `allToDelete` (src/processor.ts lines
147-150): PR candidates first, then CI candidates. -/
def allToDelete (skipMentions skipReviewRequests : Bool)
    (statusOf : String → Option PrCheckResult)
    (ciDays : Option Nat) (now : Int)
    (emails : List UnifiedEmail) : List UnifiedEmail :=
  (prPass skipMentions skipReviewRequests statusOf emails).map Prod.fst ++
    (ciPass ciDays now emails).map Prod.fst

/-- Model of JavaScript `s.trim()`: leading and trailing whitespace
removed (ASCII whitespace; the source strings are ASCII). -/
def jsTrim (s : String) : String :=
  String.mk (((s.toList.dropWhile Char.isWhitespace).reverse.dropWhile
    Char.isWhitespace).reverse)

/-- The failure branch of `checkPr` (src/github/pr.ts lines 95-110):
when the `gh pr view` invocation exits nonzero with stderr text
`stderrText`, `checkPr` returns (rather than raising) this status: safe
defaults CLOSED/false/false/false and an error string that is
`"PR not found"` when stderr contains `"Could not resolve"`, and the
trimmed stderr otherwise. -/
def checkPrFailure (repo : String) (prNumber : Nat) (stderrText : String) :
    PrCheckResult :=
  { repo := repo
    prNumber := prNumber
    state := .CLOSED
    isMerged := false
    wasRequestedReviewer := false
    wasMentioned := false
    error := some (if strContains stderrText "Could not resolve"
      then "PR not found" else jsTrim stderrText) }

/-- One review entry as returned by the review query
(`ReviewDetail.reviews` elements in src/github/pr.ts). -/
structure Review where
  author : String
  state : String
deriving DecidableEq, Repr

/-- The approval count of `fetchPrDetails` (src/github/pr.ts lines
307-309): the number of reviews in state APPROVED. -/
def approvalCount (reviews : List Review) : Nat :=
  (reviews.filter fun r => r.state == "APPROVED").length

/-- The `approvalsNeeded` computation of `fetchPrDetails`
(src/github/pr.ts lines 311-315). -/
def approvalsNeeded (reviewDecision : String) (approvals : Nat) : Int :=
  if reviewDecision = "APPROVED" then 0
  else if reviewDecision = "CHANGES_REQUESTED" then -1
  else max 0 (2 - (approvals : Int))

/-- Splitting of a character list at every occurrence of `c`, modelling
JavaScript `key.split("#")` for the one-character separator: the result is
always nonempty, and empty segments are kept. -/
def splitChar (c : Char) : List Char → List (List Char)
  | [] => [[]]
  | x :: xs =>
    let r := splitChar c xs
    if x = c then [] :: r
    else (x :: r.headD []) :: r.tail

/-- Numeric value of a decimal digit character. -/
def digitVal (ch : Char) : Nat := ch.toNat - 48

/-- Model of JavaScript `parseInt(s, 10)` on the strings arising here: the
longest leading run of decimal digits is parsed; if it is empty the result
is NaN, modelled as `none`. -/
def parseIntChars (cs : List Char) : Option Nat :=
  let ds := cs.takeWhile Char.isDigit
  if ds.isEmpty then none
  else some (ds.foldl (fun a ch => 10 * a + digitVal ch) 0)

/-- The deduplication key `"{p.repo}#{p.prNumber}"` built at
src/github/pr.ts line 163. -/
def mkKey (repo : String) (prNumber : Nat) : String :=
  repo ++ "#" ++ natToStr prNumber

/-- Reconstruction of a reference from its key (src/github/pr.ts lines
165-166): `const [repo, prNumStr] = key.split("#")` takes the first two
segments of the full split, and `parseInt(prNumStr, 10)` parses the second;
a NaN result is `none`. -/
def keyToRef (key : String) : String × Option Nat :=
  let parts := splitChar '#' key.toList
  (String.mk (parts.headD []), (parts.get? 1).bind parseIntChars)

/-- First-seen-order deduplication with an accumulator of already seen
keys, modelling the iteration order of `[...new Set(xs)]`. -/
def ufsAux (seen : List String) : List String → List String
  | [] => []
  | x :: xs => if x ∈ seen then ufsAux seen xs else x :: ufsAux (x :: seen) xs

/-- The deduplication `[...new Set(prs.map((p) => key(p)))]` at
src/github/pr.ts line 163: unique keys in first-seen order. -/
def uniqueFirstSeen (keys : List String) : List String := ufsAux [] keys

/-- State of the bounded-concurrency runner (`runWithConcurrency`,
src/github/pr.ts lines 134-157): the set `executing` is the list of
in-flight operations, each carrying the input index it will write to and
its item; `results` is the output array, `none` for slots not yet
written. -/
structure RunnerState (α β : Type) where
  inFlight : List (Nat × α)
  results : List (Option β)

/-- Completion of one in-flight operation, chosen by the scheduler: the
operation at position `j % length` settles, its result is written to its
index (`results[index] = await fn(item)`), and the settled promise is
removed from `executing` (the `finally` handler).  On an empty in-flight
list nothing happens. -/
def completeAt (fn : α → β) (s : RunnerState α β) (j : Nat) : RunnerState α β :=
  if h : s.inFlight.length = 0 then s
  else
    { inFlight := s.inFlight.eraseIdx (j % s.inFlight.length)
      results := s.results.set
        (s.inFlight.get ⟨j % s.inFlight.length,
          Nat.mod_lt _ (Nat.pos_of_ne_zero h)⟩).1
        (some (fn (s.inFlight.get ⟨j % s.inFlight.length,
          Nat.mod_lt _ (Nat.pos_of_ne_zero h)⟩).2)) }

/-- One `await Promise.race(executing)` suspension: at least one in-flight
operation settles before the loop resumes, and the scheduler may settle
further ones (`extra`) in the same suspension. -/
def completeMany (fn : α → β) (s : RunnerState α β) (j : Nat)
    (extra : List Nat) : RunnerState α β :=
  extra.foldl (completeAt fn) (completeAt fn s j)

/-- The launch loop of `runWithConcurrency` (src/github/pr.ts lines
142-153): operations are launched eagerly in input order (`i` is the index
of the next launch); after each launch, if `executing.size >= concurrency`
the loop suspends on `Promise.race` and the scheduler settles one or more
operations.  An exhausted schedule defaults to settling the oldest
in-flight operation.  The returned `Nat` is the maximum number of
simultaneously in-flight operations observed. -/
def launchLoop (fn : α → β) (concurrency : Nat) :
    Nat → List α → List (Nat × List Nat) → RunnerState α β → Nat →
    RunnerState α β × Nat
  | _, [], _, s, m => (s, m)
  | i, a :: rest, sched, s, m =>
    let s1 : RunnerState α β := { s with inFlight := s.inFlight ++ [(i, a)] }
    let m1 := max m s1.inFlight.length
    if concurrency ≤ s1.inFlight.length then
      match sched with
      | [] => launchLoop fn concurrency (i + 1) rest [] (completeMany fn s1 0 []) m1
      | (j, ex) :: sched2 =>
        launchLoop fn concurrency (i + 1) rest sched2 (completeMany fn s1 j ex) m1
    else
      launchLoop fn concurrency (i + 1) rest sched s1 m1

/-- The final `await Promise.all(executing)` (src/github/pr.ts line 155):
remaining operations settle one at a time in scheduler order until none is
left.  The fuel is the number of remaining operations. -/
def drainLoop (fn : α → β) :
    Nat → List Nat → RunnerState α β → Nat → RunnerState α β × Nat
  | 0, _, s, m => (s, max m s.inFlight.length)
  | f + 1, sched, s, m =>
    let m1 := max m s.inFlight.length
    match sched with
    | [] => drainLoop fn f [] (completeAt fn s 0) m1
    | j :: sched2 => drainLoop fn f sched2 (completeAt fn s j) m1

/-- The bounded-concurrency runner `runWithConcurrency` (src/github/pr.ts
lines 134-157), parameterised by a completion schedule: universally
quantifying over `launchSched`/`drainSched` covers every completion order
the event loop can produce.  Returns the results array and the maximum
number of simultaneously in-flight operations. -/
def runWithConcurrency (fn : α → β) (concurrency : Nat) (items : List α)
    (launchSched : List (Nat × List Nat)) (drainSched : List Nat) :
    List (Option β) × Nat :=
  let s0 : RunnerState α β := ⟨[], List.replicate items.length none⟩
  let r1 := launchLoop fn concurrency 0 items launchSched s0 0
  let r2 := drainLoop fn r1.1.inFlight.length drainSched r1.1 r1.2
  (r2.1.results, r2.2)

/-- The batch reconciler `batchCheckPrs` (src/github/pr.ts lines 159-192),
with the resolver (`checkPr`) abstracted as a function: deduplicate keys
in first-seen order, reconstruct each reference from its key, run the
per-item closure (which invokes the resolver exactly once) through the
runner at concurrency 10, and assemble the key-to-result map (modelled as
an association list; its keys are distinct, so `List.lookup` agrees with
`Map.get`).  The second component is the list of keys at which the
resolver is invoked, one invocation per element. -/
def batchCheckPrs {ρ : Type} (resolve : String → Option Nat → ρ)
    (launchSched : List (Nat × List Nat)) (drainSched : List Nat)
    (prs : List (String × Nat)) : List (String × ρ) × List String :=
  let uniqueKeys := uniqueFirstSeen (prs.map fun p => mkKey p.1 p.2)
  let uniquePrs := uniqueKeys.map fun key => (keyToRef key, key)
  let checkResults := (runWithConcurrency
    (fun q => (q.2, resolve q.1.1 q.1.2)) 10 uniquePrs launchSched drainSched).1
  (checkResults.filterMap id, uniqueKeys)

/-- Invariant tying a runner state to the input list: the results array
has one slot per item; every in-flight entry carries the item stored at
its index; no two in-flight entries target the same index; all in-flight
indices are below the number of launches performed so far; and every slot
is either already correctly written, or still unwritten and accounted for
(in flight, or not yet launched). -/
structure RunnerInv (items : List α) (fn : α → β) (launched : Nat)
    (s : RunnerState α β) : Prop where
  lenRes : s.results.length = items.length
  flConsistent : ∀ p ∈ s.inFlight, items[p.1]? = some p.2
  flLt : ∀ p ∈ s.inFlight, p.1 < launched
  flNodup : (s.inFlight.map Prod.fst).Nodup
  resSpec : ∀ k a, items[k]? = some a →
    s.results[k]? = some (some (fn a)) ∨
      (s.results[k]? = some none ∧
        (k ∈ s.inFlight.map Prod.fst ∨ launched ≤ k))

/-! ## Deletion-policy claims -/

/-- Claim C3 counterexample: for a CLOSED status with no error, no
mention, no review request and default flags, the engine selects the email
with reason `"closed PR, not specifically mentioned"` (capital `PR`), and
in particular not with the claimed reason
`"closed pr, not specifically mentioned"`. -/
theorem C3_counterexample :
    prEmailDecision false false (some
      { repo := "octo/widgets", prNumber := 7, state := .CLOSED,
        isMerged := false, wasRequestedReviewer := false, wasMentioned := false })
      = some "closed PR, not specifically mentioned" ∧
    prEmailDecision false false (some
      { repo := "octo/widgets", prNumber := 7, state := .CLOSED,
        isMerged := false, wasRequestedReviewer := false, wasMentioned := false })
      ≠ some "closed pr, not specifically mentioned" := by
  refine ⟨rfl, ?_⟩
  decide

/-- Claim C3 (amended): for every PR email whose reconciled status has
state CLOSED, `wasMentioned = false`, `wasRequestedReviewer = false`, no
error, and default policy flags, the Deletion Policy Engine selects the
email for deletion with reason `"closed PR, not specifically mentioned"`. -/
theorem C3_closed_pr_deleted (r : PrCheckResult)
    (hs : r.state = PrState.CLOSED) (he : r.error = none)
    (hm : r.wasMentioned = false) (hw : r.wasRequestedReviewer = false) :
    prEmailDecision false false (some r) =
      some "closed PR, not specifically mentioned" := by
  simp [prEmailDecision, truthyStr, he, hs, hm, hw, stateLower]

/-- Claim C3 witness: the amended theorem applied at a concrete status. -/
theorem C3_closed_pr_deleted_witness :
    prEmailDecision false false (some
      { repo := "octo/widgets", prNumber := 9, state := .CLOSED,
        isMerged := false, wasRequestedReviewer := false, wasMentioned := false })
      = some "closed PR, not specifically mentioned" :=
  C3_closed_pr_deleted _ rfl rfl rfl rfl

/-- Claim C4 counterexample: a status that carries an error — the empty
string, as produced by a failing resolver call with empty stderr — is
selected for deletion, because `if (prResult.error)` is a JavaScript
truthiness test and the empty string is falsy.  This refutes the claim
that an email whose status carries an error is never selected. -/
theorem C4_counterexample :
    prEmailDecision false false (some
      { repo := "octo/widgets", prNumber := 7, state := .CLOSED,
        isMerged := false, wasRequestedReviewer := false, wasMentioned := false,
        error := some "" })
      = some "closed PR, not specifically mentioned" := by
  rfl

/-- Claim C4 (amended): if the email's key is absent from the map, or the
status carries a non-empty error, or the status state is OPEN, the email
is never selected for deletion, regardless of all other status fields and
all policy flags. -/
theorem C4_keep_on_uncertainty (sm sr : Bool) (res : Option PrCheckResult)
    (h : res = none ∨
      ∃ r, res = some r ∧
        ((∃ s, r.error = some s ∧ s ≠ "") ∨ r.state = PrState.OPEN)) :
    prEmailDecision sm sr res = none := by
  rcases h with h | ⟨r, hr, h⟩
  · subst h; rfl
  · subst hr
    rcases h with ⟨s, hs, hne⟩ | hopen
    · simp [prEmailDecision, truthyStr, hs, hne]
    · by_cases herr : truthyStr r.error
      · simp [prEmailDecision, herr]
      · simp [prEmailDecision, herr, hopen]

/-- Claim C4 witness: the amended theorem applied to an OPEN status with
every protective field hostile to it (mentioned, requested, flags set). -/
theorem C4_keep_on_uncertainty_witness :
    prEmailDecision true true (some
      { repo := "octo/widgets", prNumber := 7, state := .OPEN,
        isMerged := false, wasRequestedReviewer := true, wasMentioned := true,
        error := none })
      = none :=
  C4_keep_on_uncertainty true true _ (Or.inr ⟨_, rfl, Or.inr rfl⟩)

/-- Claim C5: for a status with `wasMentioned = true`, no error, state not
OPEN, and the review-request guard passing (`wasRequestedReviewer = false`
or skip-review-requests set): with skip-mentions unset the email is kept,
and with skip-mentions set the same email is selected for deletion. -/
theorem C5_mention_protective_unless_overridden (sr : Bool) (r : PrCheckResult)
    (hm : r.wasMentioned = true) (he : r.error = none)
    (hs : r.state ≠ PrState.OPEN)
    (hw : r.wasRequestedReviewer = false ∨ sr = true) :
    prEmailDecision false sr (some r) = none ∧
    prEmailDecision true sr (some r) =
      some (stateLower r.state ++ " PR, not specifically mentioned") := by
  constructor
  · simp [prEmailDecision, truthyStr, he, hs, hm]
  · rcases hw with hw | hw
    · simp [prEmailDecision, truthyStr, he, hs, hw]
    · simp [prEmailDecision, truthyStr, he, hs, hw]

/-- Claim C5 witness: a MERGED, mentioned status is kept by default and
deleted when skip-mentions is set. -/
theorem C5_mention_protective_unless_overridden_witness :
    prEmailDecision false false (some
      { repo := "octo/widgets", prNumber := 7, state := .MERGED,
        isMerged := true, wasRequestedReviewer := false, wasMentioned := true,
        error := none })
      = none ∧
    prEmailDecision true false (some
      { repo := "octo/widgets", prNumber := 7, state := .MERGED,
        isMerged := true, wasRequestedReviewer := false, wasMentioned := true,
        error := none })
      = some "merged PR, not specifically mentioned" :=
  C5_mention_protective_unless_overridden false _ rfl rfl (by decide) (Or.inl rfl)

/-- Claim C6 counterexample: for a failing resolution whose stderr is
`"boom\n"` (which does not indicate an unresolvable reference), the stored
error is the trimmed text `"boom"`, not the raw transport error
`"boom\n"`. -/
theorem C6_counterexample :
    strContains "boom\n" "Could not resolve" = false ∧
    (checkPrFailure "octo/widgets" 7 "boom\n").error ≠ some "boom\n" ∧
    (checkPrFailure "octo/widgets" 7 "boom\n").error = some "boom" := by
  refine ⟨rfl, ?_, rfl⟩
  decide

/-- Claim C6 (amended): for every reference whose remote query fails,
`checkPr` returns (never raises) an error-carrying status whose
state/merged/reviewer/mention fields are the safe defaults
CLOSED/false/false/false, with the error classified as `"PR not found"`
when the failure message indicates an unresolvable reference (contains
`"Could not resolve"`) and as the trimmed transport error otherwise. -/
theorem C6_failure_is_value (repo : String) (n : Nat) (stderrText : String) :
    (checkPrFailure repo n stderrText).state = PrState.CLOSED ∧
    (checkPrFailure repo n stderrText).isMerged = false ∧
    (checkPrFailure repo n stderrText).wasRequestedReviewer = false ∧
    (checkPrFailure repo n stderrText).wasMentioned = false ∧
    ((checkPrFailure repo n stderrText).error).isSome = true ∧
    (strContains stderrText "Could not resolve" = true →
      (checkPrFailure repo n stderrText).error = some "PR not found") ∧
    (strContains stderrText "Could not resolve" = false →
      (checkPrFailure repo n stderrText).error = some (jsTrim stderrText)) := by
  refine ⟨rfl, rfl, rfl, rfl, rfl, ?_, ?_⟩
  · intro h; simp [checkPrFailure, h]
  · intro h; simp [checkPrFailure, h]

/-- Claim C6 witness: the amended theorem applied at a failing reference
whose stderr does indicate an unresolvable reference. -/
theorem C6_failure_is_value_witness :
    (checkPrFailure "octo/widgets" 7
      "GraphQL: Could not resolve to a PullRequest").error = some "PR not found" :=
  (C6_failure_is_value "octo/widgets" 7
    "GraphQL: Could not resolve to a PullRequest").2.2.2.2.2.1 (by decide)

/-- Claim C7: the approvals-needed value is 0 when the review decision is
APPROVED, -1 when it is CHANGES_REQUESTED, and otherwise
`max 0 (2 - approvalCount)` where `approvalCount` counts the reviews in
state APPROVED; it is never negative except the -1 sentinel. -/
theorem C7_approvals_needed (rd : String) (reviews : List Review) :
    (rd = "APPROVED" → approvalsNeeded rd (approvalCount reviews) = 0) ∧
    (rd = "CHANGES_REQUESTED" → approvalsNeeded rd (approvalCount reviews) = -1) ∧
    (rd ≠ "APPROVED" → rd ≠ "CHANGES_REQUESTED" →
      approvalsNeeded rd (approvalCount reviews) =
        max 0 (2 - (approvalCount reviews : Int))) ∧
    (approvalsNeeded rd (approvalCount reviews) = -1 ∨
      0 ≤ approvalsNeeded rd (approvalCount reviews)) := by
  refine ⟨?_, ?_, ?_, ?_⟩
  · intro h; simp [approvalsNeeded, h]
  · intro h; subst h; simp [approvalsNeeded]
  · intro h1 h2; simp [approvalsNeeded, h1, h2]
  · by_cases h1 : rd = "APPROVED"
    · right; simp [approvalsNeeded, h1]
    · by_cases h2 : rd = "CHANGES_REQUESTED"
      · left; simp [approvalsNeeded, h1, h2]
      · right; simp [approvalsNeeded, h1, h2]

/-- Claim C7 witness: with review decision REVIEW_REQUIRED and three
approving reviews the value clamps to 0. -/
theorem C7_approvals_needed_witness :
    approvalsNeeded "REVIEW_REQUIRED"
      (approvalCount [⟨"a", "APPROVED"⟩, ⟨"b", "APPROVED"⟩, ⟨"c", "APPROVED"⟩]) = 0 :=
  ((C7_approvals_needed "REVIEW_REQUIRED"
    [⟨"a", "APPROVED"⟩, ⟨"b", "APPROVED"⟩, ⟨"c", "APPROVED"⟩]).2.2.1
      (by decide) (by decide)).trans (by decide)

/-- Claim C8: when an age threshold is configured, every non-PR email
whose subject matches a CI pattern and whose timestamp is strictly older
than the cutoff is selected with reason `"CI email older than <N> days"`;
with the threshold unconfigured the CI pass considers no email at all. -/
theorem C8_ci_pass (d : Nat) (now : Int) (emails : List UnifiedEmail)
    (e : UnifiedEmail) (he : e ∈ emails) (hnp : isNonPrEmail e = true)
    (hci : isCiSubject e.subject = true)
    (hold : e.receivedDateTime < now - d * msPerDay) :
    (e, "CI email older than " ++ natToStr d ++ " days") ∈
      ciPass (some d) now emails ∧
    ∀ (now2 : Int) (emails2 : List UnifiedEmail), ciPass none now2 emails2 = [] := by
  constructor
  · simp only [ciPass]
    apply List.mem_filterMap.2
    refine ⟨e, List.mem_filter.2 ⟨he, hnp⟩, ?_⟩
    simp [ciEmailDecision, hci, hold]
  · intro now2 emails2; rfl

/-- Claim C8 witness: an old CI email with threshold 3 days. -/
theorem C8_ci_pass_witness :
    ((⟨"m1", "Workflow run succeeded", 0, none, none⟩ : UnifiedEmail),
      "CI email older than 3 days") ∈
      ciPass (some 3) (4 * msPerDay)
        [⟨"m1", "Workflow run succeeded", 0, none, none⟩] :=
  (C8_ci_pass 3 (4 * msPerDay) _ _ (by decide) (by decide) (by decide)
    (by decide)).1

/-- Projecting the emails out of a pass built by `filterMap` over a
per-email decision yields exactly the emails whose decision fired. -/
theorem map_fst_filterMap_pair {α β : Type} (f : α → Option β) (l : List α) :
    (l.filterMap fun e => (f e).map fun b => (e, b)).map Prod.fst =
      l.filter fun e => (f e).isSome := by
  induction l with
  | nil => rfl
  | cons a t ih =>
    cases h : f a <;>
      simp [List.filterMap_cons, h, List.filter_cons, ih]

/-- Claim C10: the PR-email pass and the CI-email pass operate on
complementary subsets of the fetched email set (the two filter predicates
are pointwise negations), and consequently the final deletion list
contains each email at most once. -/
theorem C10_passes_disjoint (sm sr : Bool)
    (statusOf : String → Option PrCheckResult) (ciDays : Option Nat) (now : Int)
    (emails : List UnifiedEmail) (hnd : emails.Nodup) :
    (∀ e, isNonPrEmail e = !isPrEmail e) ∧
    (allToDelete sm sr statusOf ciDays now emails).Nodup := by
  have hcompl : ∀ e, isNonPrEmail e = !isPrEmail e := by
    intro e; simp [isPrEmail, isNonPrEmail]
  refine ⟨hcompl, ?_⟩
  have hpr : (prPass sm sr statusOf emails).map Prod.fst =
      (emails.filter isPrEmail).filter
        (fun e => (prEmailDecision sm sr (statusOf (emailKey e))).isSome) :=
    map_fst_filterMap_pair _ _
  have hprsub : List.Sublist ((prPass sm sr statusOf emails).map Prod.fst) emails := by
    rw [hpr]; exact (List.filter_sublist _).trans (List.filter_sublist _)
  have hprnd : ((prPass sm sr statusOf emails).map Prod.fst).Nodup :=
    hprsub.nodup hnd
  match ciDays with
  | none =>
    simp only [allToDelete, ciPass, List.map_nil, List.append_nil]
    exact hprnd
  | some d =>
    have hcie : (ciPass (some d) now emails).map Prod.fst =
        (emails.filter isNonPrEmail).filter
          (fun e => (ciEmailDecision (some d) now e).isSome) :=
      map_fst_filterMap_pair _ _
    have hcisub : List.Sublist ((ciPass (some d) now emails).map Prod.fst) emails := by
      rw [hcie]; exact (List.filter_sublist _).trans (List.filter_sublist _)
    have hcind : ((ciPass (some d) now emails).map Prod.fst).Nodup :=
      hcisub.nodup hnd
    refine List.Nodup.append hprnd hcind ?_
    intro x hx hx2
    have h1 : isPrEmail x = true := by
      rw [hpr] at hx
      exact (List.mem_filter.1 (List.mem_filter.1 hx).1).2
    have h2 : isNonPrEmail x = true := by
      rw [hcie] at hx2
      exact (List.mem_filter.1 (List.mem_filter.1 hx2).1).2
    rw [hcompl x, h1] at h2
    simp at h2

/-- Claim C10 witness: a fetched set with one PR email and one CI email
yields a duplicate-free deletion list. -/
theorem C10_passes_disjoint_witness :
    (allToDelete true true
      (fun _ => some
        { repo := "o/r", prNumber := 1, state := .MERGED, isMerged := true,
          wasRequestedReviewer := false, wasMentioned := false, error := none })
      (some 3) (4 * msPerDay)
      [⟨"m1", "[o/r] fix (#1)", 0, some "o/r", some 1⟩,
       ⟨"m2", "Workflow run succeeded", 0, none, none⟩]).Nodup :=
  (C10_passes_disjoint true true _ (some 3) (4 * msPerDay) _ (by decide)).2

/-! ## Runner lemmas -/

/-- Completing an operation can only shrink the in-flight list. -/
theorem completeAt_length_le (fn : α → β) (s : RunnerState α β) (j : Nat) :
    (completeAt fn s j).inFlight.length ≤ s.inFlight.length := by
  by_cases h : s.inFlight.length = 0
  · simp [completeAt, h]
  · unfold completeAt
    rw [dif_neg h]
    exact List.length_eraseIdx_le _ _

/-- Completing an operation on a nonempty in-flight list strictly shrinks
it. -/
theorem completeAt_length_lt (fn : α → β) (s : RunnerState α β) (j : Nat)
    (h : s.inFlight.length ≠ 0) :
    (completeAt fn s j).inFlight.length < s.inFlight.length := by
  unfold completeAt
  rw [dif_neg h]
  have hlt : j % s.inFlight.length < s.inFlight.length :=
    Nat.mod_lt _ (Nat.pos_of_ne_zero h)
  simp only [List.length_eraseIdx_of_lt hlt]
  omega

/-- Completion preserves the runner invariant. -/
theorem inv_completeAt {items : List α} {fn : α → β} {launched : Nat}
    {s : RunnerState α β} (hInv : RunnerInv items fn launched s) (j : Nat) :
    RunnerInv items fn launched (completeAt fn s j) := by
  by_cases h : s.inFlight.length = 0
  · simpa [completeAt, h] using hInv
  · have hpos : 0 < s.inFlight.length := Nat.pos_of_ne_zero h
    have hlt : j % s.inFlight.length < s.inFlight.length := Nat.mod_lt _ hpos
    have hcomp : completeAt fn s j =
        { inFlight := s.inFlight.eraseIdx (j % s.inFlight.length)
          results := s.results.set (s.inFlight.get ⟨j % s.inFlight.length, hlt⟩).1
            (some (fn (s.inFlight.get ⟨j % s.inFlight.length, hlt⟩).2)) } := by
      unfold completeAt
      rw [dif_neg h]
    set q := s.inFlight.get ⟨j % s.inFlight.length, hlt⟩ with hq
    have hqmem : q ∈ s.inFlight := List.get_mem _ _ _
    have hqcons : items[q.1]? = some q.2 := hInv.flConsistent q hqmem
    have hq1items : q.1 < items.length := (List.getElem?_eq_some_iff.1 hqcons).1
    have hq1res : q.1 < s.results.length := by
      rw [hInv.lenRes]; exact hq1items
    have hsub : List.Sublist (s.inFlight.eraseIdx (j % s.inFlight.length))
        s.inFlight := List.eraseIdx_sublist _ _
    rw [hcomp]
    constructor
    · simpa using hInv.lenRes
    · intro p hp
      exact hInv.flConsistent p (hsub.subset hp)
    · intro p hp
      exact hInv.flLt p (hsub.subset hp)
    · exact ((hsub.map Prod.fst).nodup) hInv.flNodup
    · intro k a hka
      by_cases hk : k = q.1
      · subst hk
        have haq : a = q.2 := by
          rw [hka] at hqcons
          exact Option.some_injective _ hqcons
        left
        simp only [List.getElem?_set_self hq1res, haq]
      · have hget : (s.results.set q.1 (some (fn q.2)))[k]? = s.results[k]? :=
          List.getElem?_set_ne (fun hne => hk hne.symm)
        rcases hInv.resSpec k a hka with hres | ⟨hres, hpend⟩
        · left
          rw [hget, hres]
        · right
          refine ⟨by rw [hget, hres], ?_⟩
          rcases hpend with hmem | hge
          · left
            obtain ⟨p, hpmem, hpfst⟩ := List.mem_map.1 hmem
            obtain ⟨i, hi⟩ := List.mem_iff_getElem?.1 hpmem
            have hine : i ≠ j % s.inFlight.length := by
              intro hie
              subst hie
              have : p = q := by
                have := List.getElem?_eq_getElem hlt
                rw [hi] at this
                exact Option.some_injective _ this
              rw [this] at hpfst
              exact hk hpfst.symm
            exact List.mem_map.2 ⟨p,
              List.mem_eraseIdx_iff_getElem?.2 ⟨i, hine, hi⟩, hpfst⟩
          · right; exact hge

/-- A fold of completions preserves the runner invariant. -/
theorem inv_foldl_completeAt {items : List α} {fn : α → β} {launched : Nat} :
    ∀ (ex : List Nat) (s : RunnerState α β),
      RunnerInv items fn launched s →
      RunnerInv items fn launched (ex.foldl (completeAt fn) s)
  | [], _, h => h
  | e :: ex, _, h => inv_foldl_completeAt ex _ (inv_completeAt h e)

/-- A race suspension (one completion plus scheduler extras) preserves the
runner invariant. -/
theorem inv_completeMany {items : List α} {fn : α → β} {launched : Nat}
    {s : RunnerState α β} (hInv : RunnerInv items fn launched s)
    (j : Nat) (ex : List Nat) :
    RunnerInv items fn launched (completeMany fn s j ex) :=
  inv_foldl_completeAt ex _ (inv_completeAt hInv j)

/-- Launching the next operation (index `launched`, carrying the item at
that index) preserves the runner invariant and advances the launch
counter. -/
theorem inv_launch {items : List α} {fn : α → β} {launched : Nat}
    {s : RunnerState α β} (hInv : RunnerInv items fn launched s)
    {a : α} (ha : items[launched]? = some a) :
    RunnerInv items fn (launched + 1)
      { s with inFlight := s.inFlight ++ [(launched, a)] } := by
  constructor
  · simpa using hInv.lenRes
  · intro p hp
    rcases List.mem_append.1 hp with hp | hp
    · exact hInv.flConsistent p hp
    · rw [List.mem_singleton.1 hp]
      exact ha
  · intro p hp
    rcases List.mem_append.1 hp with hp | hp
    · exact Nat.lt_succ_of_lt (hInv.flLt p hp)
    · rw [List.mem_singleton.1 hp]
      exact Nat.lt_succ_self _
  · simp only [List.map_append, List.map_cons, List.map_nil]
    rw [List.nodup_append]
    refine ⟨hInv.flNodup, List.nodup_singleton _, ?_⟩
    intro x hx hx2
    rw [List.mem_singleton.1 hx2] at hx
    obtain ⟨p, hp, hpfst⟩ := List.mem_map.1 hx
    exact absurd hpfst (Nat.ne_of_lt (hInv.flLt p hp))
  · intro k b hkb
    rcases hInv.resSpec k b hkb with hres | ⟨hres, hpend⟩
    · left; exact hres
    · right
      refine ⟨hres, ?_⟩
      simp only [List.map_append, List.map_cons, List.map_nil]
      rcases hpend with hmem | hge
      · exact Or.inl (List.mem_append_left _ hmem)
      · rcases Nat.eq_or_lt_of_le hge with heq | hlt
        · exact Or.inl (List.mem_append_right _ (by simp [heq]))
        · exact Or.inr hlt

/-- The launch loop preserves the runner invariant, launching every
remaining item. -/
theorem inv_launchLoop {items : List α} {fn : α → β} (C : Nat) :
    ∀ (rest : List α) (i : Nat) (sched : List (Nat × List Nat))
      (s : RunnerState α β) (m : Nat),
      RunnerInv items fn i s →
      (∀ k, rest[k]? = items[i + k]?) →
      RunnerInv items fn (i + rest.length)
        (launchLoop fn C i rest sched s m).1 := by
  intro rest
  induction rest with
  | nil =>
    intro i sched s m hInv _
    simpa [launchLoop] using hInv
  | cons a rest2 ih =>
    intro i sched s m hInv hsuf
    have ha : items[i]? = some a := by
      have := hsuf 0
      simpa using this.symm
    have hsuf2 : ∀ k, rest2[k]? = items[(i + 1) + k]? := by
      intro k
      have h1 := hsuf (k + 1)
      have h2 : i + (k + 1) = (i + 1) + k := by omega
      rw [h2] at h1
      simpa using h1
    have hInv1 : RunnerInv items fn (i + 1)
        { s with inFlight := s.inFlight ++ [(i, a)] } := inv_launch hInv ha
    have hlen : i + (a :: rest2).length = (i + 1) + rest2.length := by
      simp; omega
    rw [hlen]
    show RunnerInv items fn ((i + 1) + rest2.length)
      (launchLoop fn C i (a :: rest2) sched s m).1
    simp only [launchLoop]
    by_cases hc : C ≤ ({ s with inFlight := s.inFlight ++ [(i, a)] } :
        RunnerState α β).inFlight.length
    · rw [if_pos hc]
      match sched with
      | [] =>
        exact ih (i + 1) [] _ _ (inv_completeMany hInv1 0 []) hsuf2
      | (j, ex) :: sched2 =>
        exact ih (i + 1) sched2 _ _ (inv_completeMany hInv1 j ex) hsuf2
    · rw [if_neg hc]
      exact ih (i + 1) sched _ _ hInv1 hsuf2

/-- The drain loop preserves the runner invariant and, given enough fuel,
empties the in-flight list. -/
theorem inv_drainLoop {items : List α} {fn : α → β} {launched : Nat} :
    ∀ (f : Nat) (sched : List Nat) (s : RunnerState α β) (m : Nat),
      RunnerInv items fn launched s → s.inFlight.length ≤ f →
      RunnerInv items fn launched (drainLoop fn f sched s m).1 ∧
        (drainLoop fn f sched s m).1.inFlight = [] := by
  intro f
  induction f with
  | zero =>
    intro sched s m hInv hle
    have : s.inFlight = [] := List.eq_nil_of_length_eq_zero (Nat.le_zero.1 hle)
    exact ⟨hInv, this⟩
  | succ f ih =>
    intro sched s m hInv hle
    have hnext : ∀ j, (completeAt fn s j).inFlight.length ≤ f := by
      intro j
      by_cases h0 : s.inFlight.length = 0
      · have : (completeAt fn s j).inFlight.length ≤ s.inFlight.length :=
          completeAt_length_le fn s j
        omega
      · have := completeAt_length_lt fn s j h0
        omega
    simp only [drainLoop]
    match sched with
    | [] => exact ih [] _ _ (inv_completeAt hInv 0) (hnext 0)
    | j :: sched2 => exact ih sched2 _ _ (inv_completeAt hInv j) (hnext j)

/-- From a finished invariant state (everything launched, nothing in
flight) the results array is exactly the per-item map. -/
theorem results_of_inv_done {items : List α} {fn : α → β} {launched : Nat}
    {s : RunnerState α β} (hInv : RunnerInv items fn launched s)
    (hfl : s.inFlight = []) (hla : items.length ≤ launched) :
    s.results = items.map (fun a => some (fn a)) := by
  apply List.ext_getElem?
  intro k
  by_cases hk : k < items.length
  · obtain ⟨a, ha⟩ : ∃ a, items[k]? = some a :=
      ⟨items[k], List.getElem?_eq_getElem hk⟩
    rcases hInv.resSpec k a ha with hres | ⟨_, hpend⟩
    · rw [hres, List.getElem?_map, ha]
      rfl
    · exfalso
      rcases hpend with hmem | hge
      · rw [hfl] at hmem
        simp at hmem
      · omega
  · have h1 : s.results[k]? = none := by
      apply List.getElem?_eq_none
      rw [hInv.lenRes]
      omega
    have h2 : (items.map (fun a => some (fn a)))[k]? = none := by
      apply List.getElem?_eq_none
      rw [List.length_map]
      omega
    rw [h1, h2]

/-- The initial runner state satisfies the invariant with no launches. -/
theorem inv_init (items : List α) (fn : α → β) :
    RunnerInv items fn 0
      ⟨[], List.replicate items.length none⟩ := by
  constructor
  · simp
  · intro p hp; simp at hp
  · intro p hp; simp at hp
  · simp
  · intro k a hka
    right
    have hk : k < items.length := (List.getElem?_eq_some_iff.1 hka).1
    refine ⟨?_, Or.inr (Nat.zero_le _)⟩
    simp [List.getElem?_replicate, hk]

/-- Order-and-value correctness of the bounded-concurrency runner: for
every schedule, slot `i` of the output is the operation's result on input
`i`. -/
theorem runWC_results (fn : α → β) (C : Nat) (items : List α)
    (ls : List (Nat × List Nat)) (ds : List Nat) :
    (runWithConcurrency fn C items ls ds).1 =
      items.map (fun a => some (fn a)) := by
  have h0 := inv_init items fn
  have h1 := inv_launchLoop C items 0 ls ⟨[], List.replicate items.length none⟩
    0 h0 (fun k => by simp)
  rw [Nat.zero_add] at h1
  have h2 := inv_drainLoop
    (launchLoop fn C 0 items ls ⟨[], List.replicate items.length none⟩ 0).1.inFlight.length
    ds _
    (launchLoop fn C 0 items ls ⟨[], List.replicate items.length none⟩ 0).2
    h1 (Nat.le_refl _)
  exact results_of_inv_done h2.1 h2.2 (Nat.le_refl _)

/-- A fold of completions can only shrink the in-flight list. -/
theorem foldl_completeAt_length_le (fn : α → β) :
    ∀ (ex : List Nat) (s : RunnerState α β),
      ((ex.foldl (completeAt fn) s).inFlight.length) ≤ s.inFlight.length
  | [], _ => Nat.le_refl _
  | e :: ex, s =>
    Nat.le_trans (foldl_completeAt_length_le fn ex (completeAt fn s e))
      (completeAt_length_le fn s e)

/-- Through the launch loop the tracked maximum never exceeds the
concurrency limit, and the loop leaves strictly fewer than `C` operations
in flight. -/
theorem launchLoop_bound (fn : α → β) (C : Nat) :
    ∀ (rest : List α) (i : Nat) (sched : List (Nat × List Nat))
      (s : RunnerState α β) (m : Nat),
      s.inFlight.length < C → m ≤ C →
      (launchLoop fn C i rest sched s m).2 ≤ C ∧
        (launchLoop fn C i rest sched s m).1.inFlight.length < C := by
  intro rest
  induction rest with
  | nil =>
    intro i sched s m hs hm
    simpa [launchLoop] using ⟨hm, hs⟩
  | cons a rest2 ih =>
    intro i sched s m hs hm
    simp only [launchLoop]
    have hlen1 : (s.inFlight ++ [(i, a)]).length = s.inFlight.length + 1 := by
      simp
    by_cases hc : C ≤ ({ s with inFlight := s.inFlight ++ [(i, a)] } :
        RunnerState α β).inFlight.length
    · rw [if_pos hc]
      have hceq : s.inFlight.length + 1 = C := by
        simp only [hlen1] at hc
        omega
      have hm1 : max m (s.inFlight.length + 1) ≤ C := by omega
      have hne : ({ s with inFlight := s.inFlight ++ [(i, a)] } :
          RunnerState α β).inFlight.length ≠ 0 := by
        simp only [hlen1]
        omega
      have hdrop : ∀ j ex, (completeMany fn
          { s with inFlight := s.inFlight ++ [(i, a)] } j ex).inFlight.length < C := by
        intro j ex
        have h1 := completeAt_length_lt fn
          { s with inFlight := s.inFlight ++ [(i, a)] } j hne
        have h2 := foldl_completeAt_length_le fn ex
          (completeAt fn { s with inFlight := s.inFlight ++ [(i, a)] } j)
        simp only [hlen1] at h1
        unfold completeMany
        omega
      match sched with
      | [] =>
        have := ih (i + 1) [] (completeMany fn
          { s with inFlight := s.inFlight ++ [(i, a)] } 0 []) (max m (s.inFlight ++ [(i, a)]).length)
          (hdrop 0 []) (by simpa [hlen1] using hm1)
        simpa [hlen1] using this
      | (j, ex) :: sched2 =>
        have := ih (i + 1) sched2 (completeMany fn
          { s with inFlight := s.inFlight ++ [(i, a)] } j ex) (max m (s.inFlight ++ [(i, a)]).length)
          (hdrop j ex) (by simpa [hlen1] using hm1)
        simpa [hlen1] using this
    · rw [if_neg hc]
      have hlt : ({ s with inFlight := s.inFlight ++ [(i, a)] } :
          RunnerState α β).inFlight.length < C := Nat.lt_of_not_le hc
      have hm1 : max m (s.inFlight ++ [(i, a)]).length ≤ C := by
        have : (s.inFlight ++ [(i, a)]).length ≤ C := by
          simpa using Nat.le_of_lt hlt
        omega
      exact ih (i + 1) sched _ _ hlt hm1

/-- Through the drain loop the tracked maximum never exceeds the
concurrency limit. -/
theorem drainLoop_bound (fn : α → β) (C : Nat) :
    ∀ (f : Nat) (sched : List Nat) (s : RunnerState α β) (m : Nat),
      s.inFlight.length ≤ C → m ≤ C →
      (drainLoop fn f sched s m).2 ≤ C := by
  intro f
  induction f with
  | zero =>
    intro sched s m hs hm
    simp only [drainLoop]
    omega
  | succ f ih =>
    intro sched s m hs hm
    simp only [drainLoop]
    have hnext : ∀ j, (completeAt fn s j).inFlight.length ≤ C :=
      fun j => Nat.le_trans (completeAt_length_le fn s j) hs
    have hm1 : max m s.inFlight.length ≤ C := by omega
    match sched with
    | [] => exact ih [] _ _ (hnext 0) hm1
    | j :: sched2 => exact ih sched2 _ _ (hnext j) hm1

/-- The runner never exceeds the concurrency limit: the maximum number of
simultaneously in-flight operations over the whole run is at most `C`. -/
theorem runWC_bound (fn : α → β) (C : Nat) (hC : 1 ≤ C) (items : List α)
    (ls : List (Nat × List Nat)) (ds : List Nat) :
    (runWithConcurrency fn C items ls ds).2 ≤ C := by
  have h1 := launchLoop_bound fn C items 0 ls
    ⟨[], List.replicate items.length none⟩ 0 (by simpa using hC) (Nat.zero_le _)
  exact drainLoop_bound fn C _ ds _ _ (Nat.le_of_lt h1.2) h1.1

/-- Claim C2: for every input list, per-item operation, concurrency limit
`C ≥ 1` and completion schedule, the runner returns one output slot per
input with `output[i]` the operation's result on `input[i]`, and at no
point are more than `C` operations unresolved simultaneously (the tracked
maximum of the in-flight set is at most `C`). -/
theorem C2_runner_contract (fn : α → β) (C : Nat) (hC : 1 ≤ C)
    (items : List α) (ls : List (Nat × List Nat)) (ds : List Nat) :
    (runWithConcurrency fn C items ls ds).1 =
      items.map (fun a => some (fn a)) ∧
    (runWithConcurrency fn C items ls ds).2 ≤ C :=
  ⟨runWC_results fn C items ls ds, runWC_bound fn C hC items ls ds⟩

/-- Claim C2 witness: a concrete run at concurrency 2 over four items
with a nontrivial completion schedule. -/
theorem C2_runner_contract_witness :
    (runWithConcurrency (fun n : Nat => n + 1) 2 [10, 20, 30, 40]
      [(1, []), (0, [0])] [5, 0]).1 =
      [some 11, some 21, some 31, some 41] ∧
    (runWithConcurrency (fun n : Nat => n + 1) 2 [10, 20, 30, 40]
      [(1, []), (0, [0])] [5, 0]).2 ≤ 2 :=
  ⟨((C2_runner_contract (fun n : Nat => n + 1) 2 (by decide) [10, 20, 30, 40]
      [(1, []), (0, [0])] [5, 0]).1).trans (by decide),
    (C2_runner_contract (fun n : Nat => n + 1) 2 (by decide) [10, 20, 30, 40]
      [(1, []), (0, [0])] [5, 0]).2⟩

/-! ## Deduplication and batch-reconciler lemmas -/

/-- Membership of the first-seen deduplication: an element appears in the
output exactly when it appears in the input and was not already seen. -/
theorem mem_ufsAux : ∀ (l seen : List String) (x : String),
    x ∈ ufsAux seen l ↔ x ∈ l ∧ x ∉ seen := by
  intro l
  induction l with
  | nil => intro seen x; simp [ufsAux]
  | cons a t ih =>
    intro seen x
    by_cases ha : a ∈ seen
    · rw [ufsAux, if_pos ha, ih]
      constructor
      · rintro ⟨hx, hnx⟩
        exact ⟨List.mem_cons_of_mem a hx, hnx⟩
      · rintro ⟨hx, hnx⟩
        rcases List.mem_cons.1 hx with rfl | hx
        · exact absurd ha hnx
        · exact ⟨hx, hnx⟩
    · rw [ufsAux, if_neg ha]
      constructor
      · intro hx
        rcases List.mem_cons.1 hx with rfl | hx
        · exact ⟨List.mem_cons_self _ _, ha⟩
        · obtain ⟨h1, h2⟩ := (ih (a :: seen) x).1 hx
          refine ⟨List.mem_cons_of_mem a h1, ?_⟩
          intro hmem
          exact h2 (List.mem_cons_of_mem a hmem)
      · rintro ⟨hx, hnx⟩
        rcases List.mem_cons.1 hx with rfl | hx
        · exact List.mem_cons_self _ _
        · by_cases hxa : x = a
          · subst hxa
            exact List.mem_cons_self _ _
          · refine List.mem_cons_of_mem _ ((ih (a :: seen) x).2 ⟨hx, ?_⟩)
            intro hmem
            rcases List.mem_cons.1 hmem with h | h
            · exact hxa h
            · exact hnx h

/-- The first-seen deduplication emits no duplicates. -/
theorem ufsAux_nodup : ∀ (l seen : List String), (ufsAux seen l).Nodup := by
  intro l
  induction l with
  | nil => intro seen; simp [ufsAux]
  | cons a t ih =>
    intro seen
    by_cases ha : a ∈ seen
    · rw [ufsAux, if_pos ha]
      exact ih seen
    · rw [ufsAux, if_neg ha]
      refine List.nodup_cons.2 ⟨?_, ih (a :: seen)⟩
      intro hmem
      exact ((mem_ufsAux t (a :: seen) a).1 hmem).2 (List.mem_cons_self a seen)

/-- The deduplicated key list has no duplicates. -/
theorem uniqueFirstSeen_nodup (l : List String) : (uniqueFirstSeen l).Nodup :=
  ufsAux_nodup l []

/-- The deduplicated key list has exactly the input's members. -/
theorem mem_uniqueFirstSeen (l : List String) (x : String) :
    x ∈ uniqueFirstSeen l ↔ x ∈ l := by
  rw [uniqueFirstSeen, mem_ufsAux]
  simp

/-- A key occurring among the pairs' first components is found by
`List.lookup`. -/
theorem lookup_isSome_of_mem_keys {ρ : Type} :
    ∀ (l : List (String × ρ)) (k : String),
      k ∈ l.map Prod.fst → (l.lookup k).isSome = true := by
  intro l
  induction l with
  | nil => intro k hk; simp at hk
  | cons p t ih =>
    intro k hk
    rw [List.lookup_cons]
    cases hbeq : k == p.1 with
    | true => rfl
    | false =>
      apply ih
      rcases List.mem_cons.1 hk with heq | hmem
      · rw [heq] at hbeq
        simp at hbeq
      · exact hmem

/-- Filtering with an always-`some` function is a map. -/
theorem filterMap_some_comp {γ δ : Type} (f : γ → δ) (l : List γ) :
    l.filterMap (fun x => some (f x)) = l.map f := by
  induction l with
  | nil => rfl
  | cons a t ih => simp [ih]

/-- The result map of the batch reconciler is the association list pairing
each deduplicated key with the resolver's output on the reconstructed
reference, in first-seen key order. -/
theorem batchCheckPrs_results_eq {ρ : Type} (resolve : String → Option Nat → ρ)
    (ls : List (Nat × List Nat)) (ds : List Nat) (prs : List (String × Nat)) :
    (batchCheckPrs resolve ls ds prs).1 =
      (uniqueFirstSeen (prs.map fun p => mkKey p.1 p.2)).map
        fun key => (key, resolve (keyToRef key).1 (keyToRef key).2) := by
  simp only [batchCheckPrs]
  rw [runWC_results]
  rw [List.filterMap_map, List.filterMap_map]
  exact filterMap_some_comp _ _

/-- Claim C1: the batch reconciler makes exactly one resolution attempt
per distinct key (the invocation log lists each distinct input key exactly
once) and the returned map contains an entry for every distinct input
key. -/
theorem C1_batch_dedup {ρ : Type} (resolve : String → Option Nat → ρ)
    (ls : List (Nat × List Nat)) (ds : List Nat) (prs : List (String × Nat)) :
    (batchCheckPrs resolve ls ds prs).2.Nodup ∧
    (∀ k, k ∈ (batchCheckPrs resolve ls ds prs).2 ↔
      k ∈ prs.map fun p => mkKey p.1 p.2) ∧
    (∀ k, (k ∈ prs.map fun p => mkKey p.1 p.2) →
      (((batchCheckPrs resolve ls ds prs).1.lookup k).isSome = true)) := by
  refine ⟨uniqueFirstSeen_nodup _, fun k => mem_uniqueFirstSeen _ k, ?_⟩
  intro k hk
  rw [batchCheckPrs_results_eq]
  apply lookup_isSome_of_mem_keys
  rw [List.map_map]
  simpa using (mem_uniqueFirstSeen _ k).2 hk

/-- Claim C1 witness: a batch with duplicated references resolves each key
once and covers every key. -/
theorem C1_batch_dedup_witness :
    ((batchCheckPrs (fun repo n => (repo, n)) [] []
      [("o/r", 1), ("o/r", 1), ("o/q", 2)]).1.lookup "o/r#1").isSome = true :=
  (C1_batch_dedup (fun repo n => (repo, n)) [] []
    [("o/r", 1), ("o/r", 1), ("o/q", 2)]).2.2 "o/r#1" (by decide)

/-! ## Key reconstruction lemmas -/

/-- Every decimal digit produced by `digitsFuel` is below 10. -/
theorem digit_lt_ten : ∀ (f n d : Nat), d ∈ digitsFuel f n → d < 10 := by
  intro f
  induction f with
  | zero => intro n d h; simp [digitsFuel] at h
  | succ f ih =>
    intro n d h
    rw [digitsFuel] at h
    by_cases h0 : n = 0
    · rw [if_pos h0] at h; simp at h
    · rw [if_neg h0] at h
      rcases List.mem_cons.1 h with rfl | h
      · exact Nat.mod_lt _ (by omega)
      · exact ih _ _ h

/-- Digit characters are recognised by `Char.isDigit`. -/
theorem digitChar_isDigit (d : Nat) (h : d < 10) :
    (digitChar d).isDigit = true := by
  interval_cases d <;> decide

/-- Parsing a digit character recovers its value. -/
theorem digitVal_digitChar (d : Nat) (h : d < 10) :
    digitVal (digitChar d) = d := by
  interval_cases d <;> decide

/-- Digit characters are not the separator. -/
theorem digitChar_ne_hash (d : Nat) (h : d < 10) : digitChar d ≠ '#' := by
  interval_cases d <;> decide

/-- The rendering of a number contains no separator character. -/
theorem natToStrChars_no_hash (n : Nat) : '#' ∉ natToStrChars n := by
  rw [natToStrChars]
  by_cases h0 : n = 0
  · rw [if_pos h0]; decide
  · rw [if_neg h0]
    intro hmem
    obtain ⟨d, hd, he⟩ := List.mem_map.1 hmem
    exact digitChar_ne_hash _ (digit_lt_ten _ _ _ (List.mem_reverse.1 hd)) he

/-- A `takeWhile` over a list all of whose elements satisfy the predicate
is the identity. -/
theorem takeWhile_all {γ : Type} (p : γ → Bool) : ∀ (l : List γ),
    (∀ c ∈ l, p c = true) → l.takeWhile p = l := by
  intro l
  induction l with
  | nil => intro _; rfl
  | cons a t ih =>
    intro h
    rw [List.takeWhile_cons, h a (List.mem_cons_self _ _)]
    simp only [ite_true]
    rw [ih fun c hc => h c (List.mem_cons_of_mem a hc)]

/-- Folding the decimal parser over the big-endian digit characters of
`n` (with accumulator `a`) yields `a` shifted past the digits plus `n`. -/
theorem parse_digitsFuel : ∀ (f n : Nat), n ≤ f → ∀ (a : Nat),
    ((digitsFuel f n).reverse.map digitChar).foldl
        (fun acc ch => 10 * acc + digitVal ch) a =
      a * 10 ^ (digitsFuel f n).length + n := by
  intro f
  induction f with
  | zero =>
    intro n hn a
    interval_cases n
    simp [digitsFuel]
  | succ f ih =>
    intro n hn a
    by_cases h0 : n = 0
    · subst h0; simp [digitsFuel]
    · rw [digitsFuel, if_neg h0]
      have hrec : n / 10 ≤ f := by
        have : n / 10 < n := Nat.div_lt_self (Nat.pos_of_ne_zero h0) (by omega)
        omega
      simp only [List.reverse_cons, List.map_append, List.map_cons, List.map_nil,
        List.foldl_append, List.foldl_cons, List.foldl_nil, List.length_cons]
      rw [ih (n / 10) hrec a]
      rw [digitVal_digitChar _ (Nat.mod_lt _ (by omega))]
      have hdm : 10 * (n / 10) + n % 10 = n := Nat.div_add_mod n 10
      rw [pow_succ, ← Nat.mul_assoc]
      generalize a * 10 ^ (digitsFuel f (n / 10)).length = Y
      omega

/-- The fuelled digit list of a positive number is nonempty. -/
theorem natLEDigits_ne_nil (n : Nat) (h : n ≠ 0) : natLEDigits n ≠ [] := by
  rw [natLEDigits]
  cases n with
  | zero => exact absurd rfl h
  | succ m =>
    rw [digitsFuel, if_neg h]
    simp

/-- Parsing the decimal rendering of a number recovers the number: the
round trip behind reconstructing a reference from its key. -/
theorem parseIntChars_natToStrChars (n : Nat) :
    parseIntChars (natToStrChars n) = some n := by
  by_cases h0 : n = 0
  · subst h0; decide
  · have hdig : ∀ c ∈ (natLEDigits n).reverse.map digitChar, c.isDigit = true := by
      intro c hc
      obtain ⟨d, hd, rfl⟩ := List.mem_map.1 hc
      exact digitChar_isDigit _ (digit_lt_ten _ _ _ (List.mem_reverse.1 hd))
    have hne : (natLEDigits n).reverse.map digitChar ≠ [] := by
      intro hnil
      exact natLEDigits_ne_nil n h0 (by simpa using hnil)
    rw [natToStrChars, if_neg h0, parseIntChars]
    simp only [takeWhile_all _ _ hdig]
    rw [if_neg (by simpa [List.isEmpty_iff] using hne)]
    simp only [natLEDigits]
    rw [parse_digitsFuel n n (Nat.le_refl n) 0]
    simp

/-- Splitting a list that does not contain the separator yields the
single whole segment. -/
theorem splitChar_not_mem (c : Char) : ∀ (l : List Char), c ∉ l →
    splitChar c l = [l] := by
  intro l
  induction l with
  | nil => intro _; rfl
  | cons x xs ih =>
    intro h
    have hx : ¬x = c := fun he => h (he ▸ List.mem_cons_self _ _)
    have hxs : c ∉ xs := fun hm => h (List.mem_cons_of_mem _ hm)
    simp only [splitChar]
    rw [if_neg hx, ih hxs]
    rfl

/-- Splitting a list around its first separator occurrence isolates the
prefix before it. -/
theorem splitChar_append (c : Char) : ∀ (l1 l2 : List Char), c ∉ l1 →
    splitChar c (l1 ++ c :: l2) = l1 :: splitChar c l2 := by
  intro l1
  induction l1 with
  | nil =>
    intro l2 _
    simp only [List.nil_append, splitChar]
    simp
  | cons x xs ih =>
    intro l2 h
    have hx : ¬x = c := fun he => h (he ▸ List.mem_cons_self _ _)
    have hxs : c ∉ xs := fun hm => h (List.mem_cons_of_mem _ hm)
    simp only [List.cons_append, splitChar, List.append_eq]
    rw [if_neg hx, ih l2 hxs]
    rfl

/-- Rebuilding a string from its character list is the identity. -/
theorem stringMk_toList (s : String) : String.mk s.toList = s := rfl

/-- The character list of a key is the repository's characters, the
separator, then the decimal rendering of the number. -/
theorem mkKey_toList (repo : String) (n : Nat) :
    (mkKey repo n).toList = repo.toList ++ '#' :: natToStrChars n := by
  show (repo ++ "#" ++ natToStr n).data = repo.data ++ '#' :: natToStrChars n
  rw [String.data_append, String.data_append, List.append_assoc]
  rfl

/-- Reconstruction of a reference from a key built from a repository
without the separator character recovers the original pair. -/
theorem keyToRef_mkKey (repo : String) (n : Nat) (h : '#' ∉ repo.toList) :
    keyToRef (mkKey repo n) = (repo, some n) := by
  rw [keyToRef, mkKey_toList]
  rw [splitChar_append '#' repo.toList (natToStrChars n) h]
  rw [splitChar_not_mem '#' (natToStrChars n) (natToStrChars_no_hash n)]
  simp [stringMk_toList, parseIntChars_natToStrChars]

/-- Claim C9: `batchCheckPrs` reconstructs each deduplicated reference by
splitting its key on `"#"` and parsing the second segment, so the
reconstructed pair equals the original exactly when the repository
contains no `"#"`; for a repository containing `"#"` the resolver receives
a different reference (here `("a", NaN)` instead of `("a#b", 5)`). -/
theorem C9_key_reconstruction :
    (∀ (repo : String) (n : Nat), '#' ∉ repo.toList →
      keyToRef (mkKey repo n) = (repo, some n)) ∧
    '#' ∈ ("a#b" : String).toList ∧
    keyToRef (mkKey "a#b" 5) ≠ ("a#b", some 5) ∧
    keyToRef (mkKey "a#b" 5) = ("a", none) := by
  refine ⟨fun repo n h => keyToRef_mkKey repo n h, ?_, ?_, ?_⟩
  · decide
  · decide
  · decide

/-- Claim C9 witness: the positive direction at a concrete separator-free
repository. -/
theorem C9_key_reconstruction_witness :
    keyToRef (mkKey "octo/widgets" 42) = ("octo/widgets", some 42) :=
  C9_key_reconstruction.1 "octo/widgets" 42 (by decide)

end Lgtm
